import Mathlib

/-! Verification development for the play_vs_ai driver of the migoyugo
repository: a console driver that pits a human (White, player +1) against
a search-guided AI (Black, player -1) on an 8 by 8 board.

The driver file (src/play_vs_ai.py) is embedded directly.  The game model
(FluxGame / KuyokuGame) and the Monte-Carlo tree search it imports are not
part of the visible source; where a claim depends on them they are
modelled from the specification, as abstract structures or as definitions
whose doc comments begin with Modelled from the spec. -/

namespace Migoyugo

/-- A board is the flattened grid of integer-coded cells. -/
abbrev Board := List Int

/-- The cell-to-symbol mapping of display (src/play_vs_ai.py lines 17-30). -/
def symbol (x : Int) : Char :=
  if x = 0 then '.'
  else if x = 1 then '○'
  else if x = -1 then '●'
  else if x ∈ ([2, 3, 4, 5] : List Int) then '◇'
  else if x ∈ ([-2, -3, -4, -5] : List Int) then '◆'
  else '?'

/-- Which move function the play_game loop calls. -/
inductive Agent where
  | human
  | ai
  deriving DecidableEq

/-- One dispatch step of the play_game loop (src/play_vs_ai.py lines
67-71): the human move function receives the raw board, the AI move
function receives board * player, elementwise. -/
def dispatch (board : Board) (player : Int) : Agent × Board :=
  if player = 1 then (Agent.human, board)
  else (Agent.ai, board.map (fun x => x * player))

/-- The canonicalization the driver performs at the call site
(src/play_vs_ai.py line 71): board * player, elementwise. -/
def canonicalize (s : Board) (p : Int) : Board :=
  s.map (fun x => x * p)

/-- Modelled from the spec: getGameEnded (the GameModel result function,
not in the visible source) judges a terminal position relative to the
player argument, so it is the absolute result (the result relative to
White, player +1, given by absResult) multiplied by the player sign. -/
def gameEnded (absResult : Board → Int) (s : Board) (p : Int) : Int :=
  p * absResult s

/-- The winner announcement of play_game (src/play_vs_ai.py lines 73-81):
after getNextState has flipped player, the driver reads
getGameEnded(board, -player) and maps result +1 to the White message,
-1 to the Black message and anything else to the draw message. -/
def announceResult (absResult : Board → Int) (s : Board) (player : Int) : String :=
  let result := gameEnded absResult s (-player)
  if result = 1 then "White (You) win!"
  else if result = -1 then "Black (AI) wins!"
  else "Draw!"

/-- One entry of the console input stream: some m when the line parses as
the integer m, none when int(input(..)) raises and the except branch of
the source consumes the line. -/
abbrev InputLine := Option Int

/-- The retry loop of human_player (src/play_vs_ai.py lines 53-61),
reading from an explicit stream of parsed input lines; valid is the
indicator vector g.getValidMoves(board, 1), an entry being truthy when it
is nonzero.  Returns none when the stream is exhausted before a valid
move arrives (the source would keep prompting). -/
def human_player (valid : List Int) : List InputLine → Option Nat
  | [] => none
  | line :: rest =>
    match line with
    | some m =>
      if 0 ≤ m ∧ m < 64 ∧ valid.getD m.toNat 0 ≠ 0 then some m.toNat
      else human_player valid rest
    | none => human_player valid rest

/-- The Python exception classes relevant to dotdict attribute access. -/
inductive PyError where
  | keyError
  | attributeError
  deriving DecidableEq

/-- Python dict lookup on an association list of string keys; the newest
binding is found first. -/
def dlookup {α : Type} : List (String × α) → String → Option α
  | [], _ => none
  | e :: rest, k => if e.fst = k then some e.snd else dlookup rest k

/-- The outcome of Python attribute lookup on a dotdict: either a class
attribute of dict (a bound method such as keys or get) found by the
normal attribute protocol before the fallback runs, or an item of the
dict itself reached through the overridden getattr fallback. -/
inductive Attr (α : Type) where
  | method (name : String)
  | value (v : α)
  deriving DecidableEq

/-- A representative set of attribute names defined on the dict class
itself; Python resolves these through the normal attribute protocol, so
they shadow the fallback and never reach the overridden getattr of
dotdict. -/
def dictClassAttrs : List String :=
  ["keys", "values", "items", "get", "pop", "popitem", "setdefault",
    "update", "clear", "copy", "fromkeys"]

/-- Attribute read on a dotdict (src/play_vs_ai.py lines 10-11): Python
first resolves the name through the class, so a dict class attribute is
returned as the bound method; only when normal resolution fails is the
overridden getattr called, which returns self[name] and therefore raises
KeyError — not AttributeError — on a missing key. -/
def dotdictGetattr {α : Type} (d : List (String × α)) (k : String) : Except PyError (Attr α) :=
  if k ∈ dictClassAttrs then Except.ok (Attr.method k)
  else
    match dlookup d k with
    | some v => Except.ok (Attr.value v)
    | none => Except.error PyError.keyError

/-- Attribute write on a dotdict (src/play_vs_ai.py lines 12-13):
setattr performs self[name] = value; a later lookup sees the newest
binding. -/
def dotdictSetattr {α : Type} (d : List (String × α)) (k : String) (v : α) : List (String × α) :=
  (k, v) :: d

/-- First-maximum scan, the semantics of np.argmax: fold the tail keeping
the best value and its index, replacing the best only on a strictly
larger value, so ties go to the lowest index. -/
def bestAux {α : Type} [LinearOrder α] : List α → α × Nat → Nat → α × Nat
  | [], acc, _ => acc
  | x :: xs, acc, i => if acc.fst < x then bestAux xs (x, i) (i + 1) else bestAux xs acc (i + 1)

/-- The index of the first maximal entry of a list (np.argmax). -/
def argmaxIdx {α : Type} [LinearOrder α] : List α → Nat
  | [] => 0
  | x :: xs => (bestAux xs (x, 0) 1).snd

/-- The one-hot probability vector the search returns at temperature 0:
a zero vector over the whole action space with a 1 at index i. -/
def oneHot (n i : Nat) : List ℚ :=
  (List.replicate n 0).set i 1

/-- Association-list lookup with decidable keys. -/
def alookup {κ β : Type} [DecidableEq κ] (k : κ) : List (κ × β) → Option β
  | [] => none
  | e :: rest => if e.fst = k then some e.snd else alookup k rest

/-- Modelled from the spec: the GameModel contract the search consumes
(the concrete FluxGame rules are not in the visible source) — a fixed
action-space size, a legal-move indicator vector, the canonical successor
(applyMove followed by canonicalize), and the terminal judgment from the
perspective of the player to move, 0 meaning ongoing. -/
structure FGame where
  n : Nat
  valids : Board → List Bool
  next : Board → Nat → Board
  ended : Board → Int

/-- Modelled from the spec: the Evaluator — a deterministic function from
a canonical state to a move-prior vector and a scalar value estimate. -/
structure FEval where
  policy : Board → List ℚ
  value : Board → ℚ

/-- Per-node search statistics: visit counts N(s,a), running mean values
Q(s,a) and stored masked priors P(s), as association lists keyed by the
canonical state. -/
structure Stats where
  nsa : List ((Board × Nat) × Nat)
  qsa : List ((Board × Nat) × ℚ)
  ps : List (Board × List ℚ)

/-- The visit count N(s,a), zero when the pair has never been visited. -/
def lookupN (st : Stats) (s : Board) (a : Nat) : Nat :=
  (alookup (s, a) st.nsa).getD 0

/-- The mean action value Q(s,a), zero when the pair has never been
visited. -/
def lookupQ (st : Stats) (s : Board) (a : Nat) : ℚ :=
  (alookup (s, a) st.qsa).getD 0

/-- The backup update at one (state, action) pair: increment N(s,a) and
fold the backed-up value v into the running mean Q(s,a). -/
def statUpdate (s : Board) (a : Nat) (v : ℚ) (st : Stats) : Stats :=
  { st with
    nsa := ((s, a), lookupN st s a + 1) :: st.nsa
    qsa := ((s, a), ((lookupN st s a : ℚ) * lookupQ st s a + v) / ((lookupN st s a : ℚ) + 1)) :: st.qsa }

/-- Every recorded visit count belongs to an action that is legal in its
state: the support invariant of the search statistics. -/
def SupportInv (g : FGame) (st : Stats) : Prop :=
  ∀ e ∈ st.nsa, (g.valids e.fst.fst).getD e.fst.snd false = true

/-- Modelled from the spec: the upper-confidence score
Q(a) + cpuct * P(a) * sqrt(sum of N) / (1 + N(a)); the square root of the
natural-number visit total is taken with Nat.sqrt, which the claims under
proof never depend on numerically. -/
def ucbScore (cpuct q p : ℚ) (nTot na : Nat) : ℚ :=
  q + cpuct * p * ((Nat.sqrt nTot : ℚ)) / (1 + (na : ℚ))

/-- The total visit count over all actions of a state. -/
def totalN (g : FGame) (st : Stats) (s : Board) : Nat :=
  (List.range g.n).foldl (fun t a => t + lookupN st s a) 0

/-- One step of the selection fold: an illegal action is skipped, a legal
action replaces the incumbent only when its score is strictly larger, so
ties go to the lowest action index. -/
def selectStep (g : FGame) (cpuct : ℚ) (st : Stats) (s : Board) (pri : List ℚ)
    (acc : Option (Nat × ℚ)) (a : Nat) : Option (Nat × ℚ) :=
  if (g.valids s).getD a false then
    let sc := ucbScore cpuct (lookupQ st s a) (pri.getD a 0) (totalN g st s) (lookupN st s a)
    match acc with
    | none => some (a, sc)
    | some p => if p.snd < sc then some (a, sc) else some p
  else acc

/-- Modelled from the spec: selection — the legal action maximizing the
upper-confidence score, ties broken by the lowest action index, none when
no action is legal. -/
def selectAction (g : FGame) (cpuct : ℚ) (st : Stats) (s : Board) : Option Nat :=
  Option.map Prod.fst
    (List.foldl (selectStep g cpuct st s ((alookup s st.ps).getD (List.replicate g.n 0)))
      none (List.range g.n))

/-- Modelled from the spec: the evaluator policy masked to the legal
actions and renormalized; when all legal priors sum to zero the fallback
is the uniform distribution over the legal actions. -/
def maskedPolicy (g : FGame) (s : Board) (raw : List ℚ) : List ℚ :=
  let masked := (List.range g.n).map (fun a => if (g.valids s).getD a false then raw.getD a 0 else 0)
  if 0 < masked.sum then masked.map (fun x => x / masked.sum)
  else
    (List.range g.n).map (fun a =>
      if (g.valids s).getD a false then
        (1 : ℚ) / (((List.range g.n).filter (fun b => (g.valids s).getD b false)).length : ℚ)
      else 0)

/-- The value/statistics pair a parent receives back from a descent into
a child: the child value is folded into Q(s,a), N(s,a) is incremented,
and the value is negated because perspective alternates each ply. -/
def searchChild (s : Board) (a : Nat) (r : ℚ × Stats) : ℚ × Stats :=
  (-(r.fst), statUpdate s a r.fst r.snd)

/-- Modelled from the spec: one recursive simulation of the search below
the root.  A terminal state returns its result (negated for the parent);
an unexpanded state is expanded with the evaluator and returns its value;
otherwise the selected action is descended and its statistics updated on
backup.  Fuel bounds the recursion depth; exhausted fuel returns a zero
value with untouched statistics. -/
def searchRec (g : FGame) (ev : FEval) (cpuct : ℚ) : Nat → Stats → Board → ℚ × Stats
  | 0, st, _ => (0, st)
  | Nat.succ fuel, st, s =>
    if g.ended s ≠ 0 then (-((g.ended s : ℚ)), st)
    else
      match alookup s st.ps with
      | none => (-(ev.value s), { st with ps := (s, maskedPolicy g s (ev.policy s)) :: st.ps })
      | some _ =>
        match selectAction g cpuct st s with
        | none => (0, st)
        | some a => searchChild s a (searchRec g ev cpuct fuel st (g.next s a))

/-- Modelled from the spec: one simulation started at the (already
expanded) root — selection at the root, a recursive descent, and the
backup of the root action.  A terminal root or a root without a legal
action leaves the statistics untouched. -/
def simFromRoot (g : FGame) (ev : FEval) (cpuct : ℚ) (fuel : Nat) (st : Stats) (s : Board) : Stats :=
  if g.ended s ≠ 0 then st
  else
    match selectAction g cpuct st s with
    | none => st
    | some a =>
      statUpdate s a (searchRec g ev cpuct fuel st (g.next s a)).fst
        (searchRec g ev cpuct fuel st (g.next s a)).snd

/-- The configured number of simulations, run in sequence from the root. -/
def runSims (g : FGame) (ev : FEval) (cpuct : ℚ) (fuel : Nat) : Nat → Stats → Board → Stats
  | 0, st, _ => st
  | Nat.succ k, st, s => runSims g ev cpuct fuel k (simFromRoot g ev cpuct fuel st s) s

/-- The fresh per-decision statistics: no visits, the root expanded with
its masked prior. -/
def startStats (g : FGame) (ev : FEval) (s : Board) : Stats :=
  { nsa := [], qsa := [], ps := [(s, maskedPolicy g s (ev.policy s))] }

/-- The root visit counts over the whole action space after the
configured simulations. -/
def rootCounts (g : FGame) (ev : FEval) (cpuct : ℚ) (fuel sims : Nat) (s : Board) : List Nat :=
  (List.range g.n).map (fun a => lookupN (runSims g ev cpuct fuel sims (startStats g ev s) s) s a)

/-- Modelled from the spec: getActionProb runs the configured number of
simulations from the canonical root (the root is expanded first, so every
simulation selects and visits one root action) and reports the visit
counts as a distribution over the whole action space.  At temperature 0
(the only temperature the driver uses) the distribution is the one-hot
vector on the argmax of the counts, first index on ties, written exactly
as numpy does: a zero vector with a 1 placed at the argmax.  Nonzero
temperature is modelled at exponent one: counts divided by their total. -/
def getActionProb (g : FGame) (ev : FEval) (cpuct : ℚ) (fuel sims : Nat) (s : Board)
    (temp : Nat) : List ℚ :=
  if temp = 0 then oneHot g.n (argmaxIdx (rootCounts g ev cpuct fuel sims s))
  else if (rootCounts g ev cpuct fuel sims s).sum = 0 then List.replicate g.n 0
  else (rootCounts g ev cpuct fuel sims s).map
    (fun c => (c : ℚ) / ((rootCounts g ev cpuct fuel sims s).sum : ℚ))

/-- The driver configuration (src/play_vs_ai.py lines 39-42). -/
def args_numMCTSSims : Nat := 25

/-- The driver exploration constant (src/play_vs_ai.py line 41). -/
def args_cpuct : ℚ := 1

/-- The driver AI move function (src/play_vs_ai.py lines 45-47):
np.argmax of getActionProb at temperature 0. -/
def ai_player (g : FGame) (ev : FEval) (fuel : Nat) (s : Board) : Nat :=
  argmaxIdx (getActionProb g ev args_cpuct fuel args_numMCTSSims s 0)

/-- Modelled from the spec: each getActionProb invocation owns a fresh
per-decision tree — nodes are created during one invocation and never
shared across invocations — so whatever engine statistics an earlier call
of the shared engine instance left behind do not enter a later decision.
aiPlayerFrom makes that explicit by taking, and discarding, the incoming
engine statistics. -/
def aiPlayerFrom (_prior : Stats) (g : FGame) (ev : FEval) (fuel : Nat) (s : Board) : Nat :=
  ai_player g ev fuel s

/-- A concrete game instance over the full 64-cell action space, used to
exercise the search model on explicit inputs: every action is legal, no
position is terminal, and a move conses its index onto the board. -/
def allLegalGame : FGame where
  n := 64
  valids := fun _ => List.replicate 64 true
  next := fun s a => (a : Int) :: s
  ended := fun _ => 0

/-- A concrete deterministic evaluator: the uniform raw prior and a zero
value estimate. -/
def uniformEval : FEval where
  policy := fun _ => List.replicate 64 1
  value := fun _ => 0

/-- Claim C1: the claim states that play_game announces White exactly on
an absolute White win and Black exactly on an absolute Black win,
whichever player moved last.  The code violates this: when the AI (Black,
player -1) makes the final move the next player is +1, the driver reads
the result relative to -player = -1, and a position whose absolute result
is a Black win (result relative to White is -1) yields relative result
+1, so the driver prints the White message although Black has won. -/
theorem announce_wrong_winner :
    announceResult (fun _ => -1) [] 1 = "White (You) win!" ∧
    gameEnded (fun _ => -1) [] 1 = -1 := by
  constructor
  · rfl
  · rfl

/-- Claim C2: on the AI's turn (player = -1) the board handed to the move
function is the elementwise product of the board with the player sign,
that is, the sign-inverted board; on the human's turn (player = 1) the
board is passed unnegated. -/
theorem dispatch_boards (board : Board) :
    dispatch board (-1) = (Agent.ai, board.map (fun x => -x)) ∧
    dispatch board 1 = (Agent.human, board) := by
  constructor
  · simp [dispatch]
  · simp [dispatch]

/-- Claim C5: the relative terminal result satisfies sign negation,
result(state, p) = -result(state, -p), so in particular the value
play_game reads through getGameEnded(board, -player) is the negation of
getGameEnded(board, player). -/
theorem gameEnded_neg (absResult : Board → Int) (s : Board) (p : Int) :
    gameEnded absResult s p = - gameEnded absResult s (-p) := by
  simp [gameEnded]

/-- Claim C7: the driver canonicalization board * player is the identity
at player 1, the sign inversion at player -1, and idempotent under a
further canonicalization at player 1. -/
theorem canonicalize_spec (s : Board) (p : Int) :
    canonicalize s 1 = s ∧
    canonicalize s (-1) = s.map (fun x => -x) ∧
    canonicalize (canonicalize s p) 1 = canonicalize s p := by
  refine ⟨?_, ?_, ?_⟩ <;> simp [canonicalize]

/-- Claim C9: the symbol mapping of display follows the data-model cell
codes exactly: 0 is the empty dot, +1 and -1 the White and Black Ion,
the values 2..5 the White Node, the values -2..-5 the Black Node, and
every remaining value the unknown marker. -/
theorem symbol_spec :
    symbol 0 = '.' ∧ symbol 1 = '○' ∧ symbol (-1) = '●' ∧
    (∀ x : Int, x ∈ ([2, 3, 4, 5] : List Int) → symbol x = '◇') ∧
    (∀ x : Int, x ∈ ([-2, -3, -4, -5] : List Int) → symbol x = '◆') ∧
    (∀ x : Int, x ≠ 0 → x ≠ 1 → x ≠ -1 → x ∉ ([2, 3, 4, 5] : List Int) →
      x ∉ ([-2, -3, -4, -5] : List Int) → symbol x = '?') := by
  refine ⟨rfl, rfl, rfl, ?_, ?_, ?_⟩
  · intro x hx
    fin_cases hx <;> rfl
  · intro x hx
    fin_cases hx <;> rfl
  · intro x h0 h1 hm1 hA hB
    unfold symbol
    rw [if_neg h0, if_neg h1, if_neg hm1, if_neg hA, if_neg hB]

/-- Witness for claim C9: the mapping evaluated at an unknown code and at
a White Node stage. -/
theorem symbol_spec_holds : symbol 7 = '?' ∧ symbol 3 = '◇' := by
  constructor
  · exact symbol_spec.2.2.2.2.2 7 (by decide) (by decide) (by decide) (by decide) (by decide)
  · exact symbol_spec.2.2.2.1 3 (by decide)

/-- Claim C8: whenever the input stream eventually contains a line that
parses to an in-range, valid move, the human_player loop returns a move a
with a < 64 whose validity entry is truthy, consuming every unparsable,
out-of-range or invalid line before it with a reprompt and without any
exception escaping. -/
theorem human_player_valid (valid : List Int) (inputs : List InputLine)
    (h : ∃ line ∈ inputs, ∃ m : Int,
      line = some m ∧ 0 ≤ m ∧ m < 64 ∧ valid.getD m.toNat 0 ≠ 0) :
    ∃ a : Nat, human_player valid inputs = some a ∧ a < 64 ∧ valid.getD a 0 ≠ 0 := by
  induction inputs with
  | nil => simp at h
  | cons line rest ih =>
    cases line with
    | none =>
      rw [human_player]
      apply ih
      obtain ⟨l, hl, m, hm, hrest⟩ := h
      rcases List.mem_cons.mp hl with hh | ht
      · rw [hh] at hm; cases hm
      · exact ⟨l, ht, m, hm, hrest⟩
    | some m0 =>
      by_cases hc : 0 ≤ m0 ∧ m0 < 64 ∧ valid.getD m0.toNat 0 ≠ 0
      · refine ⟨m0.toNat, ?_, ?_, hc.2.2⟩
        · rw [human_player, if_pos hc]
        · omega
      · rw [human_player, if_neg hc]
        apply ih
        obtain ⟨l, hl, m, hm, h0, h64, hv⟩ := h
        rcases List.mem_cons.mp hl with hh | ht
        · rw [hh] at hm
          injection hm with hmm
          rw [hmm] at hc
          exact absurd ⟨h0, h64, hv⟩ hc
        · exact ⟨l, ht, m, hm, h0, h64, hv⟩

/-- Witness for claim C8: a stream with an unparsable line, an
out-of-range line and an invalid move before the first valid one. -/
theorem human_player_valid_holds :
    ∃ a : Nat,
      human_player (List.replicate 5 (0 : Int) ++ List.replicate 59 1)
        [none, some 100, some (-3), some 2, some 5] = some a ∧
      a < 64 ∧ (List.replicate 5 (0 : Int) ++ List.replicate 59 1).getD a 0 ≠ 0 :=
  human_player_valid (List.replicate 5 (0 : Int) ++ List.replicate 59 1)
    [none, some 100, some (-3), some 2, some 5]
    ⟨some 5, by decide, 5, rfl, by decide, by decide, by decide⟩

/-- Claim C10, counterexample: the claim as stated fails for keys that
collide with dict class attributes, because Python resolves those
through the normal attribute protocol before the getattr fallback runs.
With the key keys present in the dotdict, attribute access returns the
shadowing dict method, not the stored item; and with the key get absent,
attribute access still finds the dict method, so no KeyError is raised
and hasattr-style probing returns True instead of raising. -/
theorem dotdict_attr_counterexample :
    dotdictGetattr [(("keys"), (7 : Int))] ("keys") = Except.ok (Attr.method ("keys")) ∧
    (Attr.method ("keys") : Attr Int) ≠ Attr.value 7 ∧
    dlookup ([] : List (String × Int)) ("get") = none ∧
    dotdictGetattr ([] : List (String × Int)) ("get") = Except.ok (Attr.method ("get")) := by
  refine ⟨rfl, by decide, rfl, rfl⟩

/-- Claim C10, amended: for every key that does not collide with a dict
class attribute, dotdict attribute access is dict access — a present key
reads back its item, an assigned key reads back as assigned, and a
missing key raises KeyError rather than AttributeError, so hasattr-style
probing on such keys raises instead of returning False.  Attribute
assignment always writes the item, for every key, because setattr is
overridden unconditionally; and a key naming a dict class attribute
resolves to that class attribute instead of the item. -/
theorem dotdict_attr_access (α : Type) :
    (∀ (d : List (String × α)) (k : String) (v : α), k ∉ dictClassAttrs →
      dlookup d k = some v → dotdictGetattr d k = Except.ok (Attr.value v)) ∧
    (∀ (d : List (String × α)) (k : String) (v : α),
      dlookup (dotdictSetattr d k v) k = some v) ∧
    (∀ (d : List (String × α)) (k : String) (v : α), k ∉ dictClassAttrs →
      dotdictGetattr (dotdictSetattr d k v) k = Except.ok (Attr.value v)) ∧
    (∀ (d : List (String × α)) (k : String), k ∉ dictClassAttrs → dlookup d k = none →
      dotdictGetattr d k = Except.error PyError.keyError ∧
      dotdictGetattr d k ≠ Except.error PyError.attributeError) ∧
    (∀ (d : List (String × α)) (k : String), k ∈ dictClassAttrs →
      dotdictGetattr d k = Except.ok (Attr.method k)) := by
  refine ⟨?_, ?_, ?_, ?_, ?_⟩
  · intro d k v hk h
    rw [dotdictGetattr, if_neg hk, h]
  · intro d k v
    simp [dotdictSetattr, dlookup]
  · intro d k v hk
    rw [dotdictGetattr, if_neg hk]
    simp [dotdictSetattr, dlookup]
  · intro d k hk h
    rw [dotdictGetattr, if_neg hk, h]
    refine ⟨rfl, ?_⟩
    intro hcontra
    exact absurd (Except.error.inj hcontra) (by decide)
  · intro d k hk
    rw [dotdictGetattr, if_pos hk]

/-- Witness for claim C10: the driver args dict read at a present
non-colliding key, written and read back, raising KeyError at a missing
key, and returning the shadowing dict method at a colliding key. -/
theorem dotdict_attr_access_holds :
    dotdictGetattr [(("numMCTSSims"), (25 : Int))] ("numMCTSSims")
      = Except.ok (Attr.value 25) ∧
    dotdictGetattr (dotdictSetattr [(("numMCTSSims"), (25 : Int))] ("cpuct") 1) ("cpuct")
      = Except.ok (Attr.value 1) ∧
    (dotdictGetattr [(("numMCTSSims"), (25 : Int))] ("missing")
        = Except.error PyError.keyError ∧
      dotdictGetattr [(("numMCTSSims"), (25 : Int))] ("missing")
        ≠ Except.error PyError.attributeError) ∧
    dotdictGetattr [(("numMCTSSims"), (25 : Int))] ("keys")
      = Except.ok (Attr.method ("keys")) := by
  refine ⟨?_, ?_, ?_, ?_⟩
  · exact (dotdict_attr_access Int).1 _ _ _ (by decide) (by decide)
  · exact (dotdict_attr_access Int).2.2.1 _ _ _ (by decide)
  · exact (dotdict_attr_access Int).2.2.2.1 _ _ (by decide) (by decide)
  · exact (dotdict_attr_access Int).2.2.2.2 _ _ (by decide)

/-- Reading inside the left part of an appended list. -/
theorem getD_append_left {α : Type} (d : α) :
    ∀ (l₁ l₂ : List α) (i : Nat), i < l₁.length → (l₁ ++ l₂).getD i d = l₁.getD i d := by
  intro l₁
  induction l₁ with
  | nil => intro l₂ i hi; simp at hi
  | cons x t ih =>
    intro l₂ i hi
    cases i with
    | zero => simp
    | succ j =>
      simp only [List.cons_append, List.getD_cons_succ]
      exact ih l₂ j (by simpa using hi)

/-- Reading inside the right part of an appended list. -/
theorem getD_append_right {α : Type} (d : α) :
    ∀ (l₁ l₂ : List α) (i : Nat), (l₁ ++ l₂).getD (l₁.length + i) d = l₂.getD i d := by
  intro l₁
  induction l₁ with
  | nil => intro l₂ i; simp
  | cons x t ih =>
    intro l₂ i
    have harith : (x :: t).length + i = (t.length + i) + 1 := by simp; omega
    rw [harith]
    simp only [List.cons_append, List.getD_cons_succ]
    exact ih l₂ i

/-- Reading inside a replicated list. -/
theorem getD_replicate {α : Type} (d x : α) :
    ∀ (n i : Nat), i < n → (List.replicate n x).getD i d = x := by
  intro n
  induction n with
  | zero => intro i hi; omega
  | succ m ih =>
    intro i hi
    cases i with
    | zero => simp [List.replicate_succ]
    | succ j =>
      simp only [List.replicate_succ, List.getD_cons_succ]
      exact ih j (by omega)

/-- A list of replicated zeros sums to zero. -/
theorem sum_replicate_zero : ∀ n : Nat, (List.replicate n (0 : ℚ)).sum = 0 := by
  intro n
  induction n with
  | zero => rfl
  | succ m ih => simp [List.replicate_succ, ih]

/-- Reading an entry of a map over a range. -/
theorem getD_range_map {β : Type} (f : Nat → β) (d : β) :
    ∀ (n i : Nat), i < n → ((List.range n).map f).getD i d = f i := by
  intro n
  induction n with
  | zero => intro i hi; omega
  | succ m ih =>
    intro i hi
    rw [List.range_succ, List.map_append]
    rcases Nat.lt_or_ge i m with hlt | hge
    · rw [getD_append_left d _ _ i (by simpa using hlt)]
      exact ih i hlt
    · have hi' : i = m := by omega
      subst hi'
      simp

/-- Setting index i of a replicated-zero list splits it around the set
entry. -/
theorem set_replicate_split :
    ∀ (n i : Nat), i < n →
      (List.replicate n (0 : ℚ)).set i 1
        = List.replicate i 0 ++ 1 :: List.replicate (n - i - 1) 0 := by
  intro n
  induction n with
  | zero => intro i hi; omega
  | succ m ih =>
    intro i hi
    cases i with
    | zero => simp [List.replicate_succ]
    | succ j =>
      simp only [List.replicate_succ, List.set_cons_succ]
      rw [ih j (by omega)]
      simp [List.replicate_succ]

/-- The scanned best index stays below the length bound. -/
theorem bestAux_snd_lt {α : Type} [LinearOrder α] :
    ∀ (xs : List α) (acc : α × Nat) (i : Nat), acc.snd < i →
      (bestAux xs acc i).snd < i + xs.length := by
  intro xs
  induction xs with
  | nil => intro acc i h; simpa [bestAux] using h
  | cons x t ih =>
    intro acc i h
    rw [bestAux]
    by_cases hx : acc.fst < x
    · rw [if_pos hx]
      have := ih (x, i) (i + 1) (Nat.lt_succ_self i)
      simp only [List.length_cons]
      omega
    · rw [if_neg hx]
      have := ih acc (i + 1) (by omega)
      simp only [List.length_cons]
      omega

/-- The scanned best value dominates the incumbent and every element of
the remaining list. -/
theorem bestAux_fst_ge {α : Type} [LinearOrder α] :
    ∀ (xs : List α) (acc : α × Nat) (i : Nat),
      acc.fst ≤ (bestAux xs acc i).fst ∧ ∀ y ∈ xs, y ≤ (bestAux xs acc i).fst := by
  intro xs
  induction xs with
  | nil => intro acc i; exact ⟨le_refl _, by intro y hy; cases hy⟩
  | cons x t ih =>
    intro acc i
    rw [bestAux]
    by_cases hx : acc.fst < x
    · rw [if_pos hx]
      obtain ⟨h1, h2⟩ := ih (x, i) (i + 1)
      refine ⟨le_trans (le_of_lt hx) h1, ?_⟩
      intro y hy
      rcases List.mem_cons.mp hy with rfl | hyt
      · exact h1
      · exact h2 y hyt
    · rw [if_neg hx]
      obtain ⟨h1, h2⟩ := ih acc (i + 1)
      refine ⟨h1, ?_⟩
      intro y hy
      rcases List.mem_cons.mp hy with rfl | hyt
      · exact le_trans (le_of_not_lt hx) h1
      · exact h2 y hyt

/-- Dropping to position i and finding a cons determines the entry at i
and the drop at i + 1. -/
theorem getD_of_drop {α : Type} (d : α) :
    ∀ (l : List α) (i : Nat) (x : α) (xs : List α), l.drop i = x :: xs →
      l.getD i d = x ∧ l.drop (i + 1) = xs := by
  intro l
  induction l with
  | nil => intro i x xs h; rw [List.drop_nil] at h; cases h
  | cons y t ih =>
    intro i x xs h
    cases i with
    | zero =>
      rw [List.drop_zero] at h
      injection h with h1 h2
      subst h1
      subst h2
      exact ⟨rfl, by simp⟩
    | succ j =>
      rw [List.drop_succ_cons] at h
      obtain ⟨h1, h2⟩ := ih j x xs h
      exact ⟨by simpa using h1, by simpa using h2⟩

/-- The value the scan settles on is the list entry at the index the scan
settles on. -/
theorem bestAux_getD {α : Type} [LinearOrder α] (d : α) :
    ∀ (xs : List α) (acc : α × Nat) (i : Nat) (full : List α),
      full.getD acc.snd d = acc.fst → full.drop i = xs →
      full.getD (bestAux xs acc i).snd d = (bestAux xs acc i).fst := by
  intro xs
  induction xs with
  | nil => intro acc i full hacc _; simpa [bestAux] using hacc
  | cons x t ih =>
    intro acc i full hacc hdrop
    obtain ⟨hx, hdrop'⟩ := getD_of_drop d full i x t hdrop
    rw [bestAux]
    by_cases hlt : acc.fst < x
    · rw [if_pos hlt]
      exact ih (x, i) (i + 1) full hx hdrop'
    · rw [if_neg hlt]
      exact ih acc (i + 1) full hacc hdrop'

/-- Every entry strictly before the index the scan settles on is strictly
below the value the scan settles on: the first-maximum property. -/
theorem bestAux_first {α : Type} [LinearOrder α] (d : α) :
    ∀ (xs : List α) (acc : α × Nat) (i : Nat) (full : List α),
      full.drop i = xs →
      (∀ j, j < i → full.getD j d ≤ acc.fst) →
      (∀ j, j < acc.snd → full.getD j d < acc.fst) →
      ∀ j, j < (bestAux xs acc i).snd → full.getD j d < (bestAux xs acc i).fst := by
  intro xs
  induction xs with
  | nil => intro acc i full _ _ hstrict; simpa [bestAux] using hstrict
  | cons x t ih =>
    intro acc i full hdrop hle hstrict
    obtain ⟨hx, hdrop'⟩ := getD_of_drop d full i x t hdrop
    rw [bestAux]
    by_cases hlt : acc.fst < x
    · rw [if_pos hlt]
      refine ih (x, i) (i + 1) full hdrop' ?_ ?_
      · intro j hj
        rcases Nat.lt_or_ge j i with hji | hji
        · exact le_of_lt (lt_of_le_of_lt (hle j hji) hlt)
        · have : j = i := by omega
          subst this
          rw [hx]
      · intro j hj
        exact lt_of_le_of_lt (hle j hj) hlt
    · rw [if_neg hlt]
      refine ih acc (i + 1) full hdrop' ?_ hstrict
      intro j hj
      rcases Nat.lt_or_ge j i with hji | hji
      · exact hle j hji
      · have : j = i := by omega
        subst this
        rw [hx]
        exact le_of_not_lt hlt

/-- The argmax index of a nonempty list is inside the list. -/
theorem argmaxIdx_lt {α : Type} [LinearOrder α] (xs : List α) (h : xs ≠ []) :
    argmaxIdx xs < xs.length := by
  cases xs with
  | nil => exact absurd rfl h
  | cons x t =>
    rw [argmaxIdx]
    have := bestAux_snd_lt t (x, 0) 1 (Nat.lt_succ_self 0)
    simp only [List.length_cons]
    omega

/-- Every element of a list is dominated by the entry at its argmax
index. -/
theorem argmax_getD_ge {α : Type} [LinearOrder α] (d : α) (xs : List α) (y : α)
    (hy : y ∈ xs) : y ≤ xs.getD (argmaxIdx xs) d := by
  cases xs with
  | nil => cases hy
  | cons x t =>
    rw [argmaxIdx]
    have hget : (x :: t).getD (bestAux t (x, 0) 1).snd d = (bestAux t (x, 0) 1).fst :=
      bestAux_getD d t (x, 0) 1 (x :: t) (by simp) (by simp)
    rw [hget]
    obtain ⟨h1, h2⟩ := bestAux_fst_ge t (x, 0) 1
    rcases List.mem_cons.mp hy with rfl | hyt
    · exact h1
    · exact h2 y hyt

/-- Entries strictly before the argmax index are strictly below the entry
at the argmax index: np.argmax returns the first maximum. -/
theorem argmax_getD_first {α : Type} [LinearOrder α] (d : α) (xs : List α) (j : Nat)
    (hj : j < argmaxIdx xs) : xs.getD j d < xs.getD (argmaxIdx xs) d := by
  cases xs with
  | nil => rw [argmaxIdx] at hj; omega
  | cons x t =>
    rw [argmaxIdx] at hj ⊢
    have hget : (x :: t).getD (bestAux t (x, 0) 1).snd d = (bestAux t (x, 0) 1).fst :=
      bestAux_getD d t (x, 0) 1 (x :: t) (by simp) (by simp)
    rw [hget]
    refine bestAux_first d t (x, 0) 1 (x :: t) (by simp) ?_ ?_ j hj
    · intro k hk
      have : k = 0 := by omega
      subst this
      simp
    · intro k hk
      omega

/-- Scanning a block of zeros with a nonnegative incumbent leaves the
state untouched and advances the position. -/
theorem bestAux_replicate_zero :
    ∀ (k : Nat) (rest : List ℚ) (acc : ℚ × Nat) (i : Nat), 0 ≤ acc.fst →
      bestAux (List.replicate k 0 ++ rest) acc i = bestAux rest acc (i + k) := by
  intro k
  induction k with
  | zero => intro rest acc i _; simp
  | succ m ih =>
    intro rest acc i h
    simp only [List.replicate_succ, List.cons_append]
    rw [bestAux, if_neg (not_lt.mpr h)]
    rw [ih rest acc (i + 1) h]
    congr 1
    omega

/-- The argmax of a one-hot vector is the hot index. -/
theorem argmaxIdx_oneHot (n i : Nat) (h : i < n) : argmaxIdx (oneHot n i) = i := by
  rw [oneHot, set_replicate_split n i h]
  cases i with
  | zero =>
    simp only [List.replicate_zero, List.nil_append]
    rw [argmaxIdx]
    have := bestAux_replicate_zero (n - 0 - 1) [] ((1 : ℚ), 0) 1 (by norm_num)
    rw [List.append_nil] at this
    rw [this, bestAux]
  | succ j =>
    simp only [List.replicate_succ, List.cons_append]
    rw [argmaxIdx]
    rw [bestAux_replicate_zero j (1 :: List.replicate (n - (j + 1) - 1) 0) ((0 : ℚ), 0) 1 le_rfl]
    rw [bestAux, if_pos (by norm_num : (0 : ℚ) < 1)]
    have := bestAux_replicate_zero (n - (j + 1) - 1) [] ((1 : ℚ), 1 + j) (1 + j + 1) (by norm_num)
    rw [List.append_nil] at this
    rw [this, bestAux]
    omega

/-- A one-hot vector has the length of the action space. -/
theorem oneHot_length (n i : Nat) : (oneHot n i).length = n := by
  simp [oneHot]

/-- A one-hot vector sums to one. -/
theorem oneHot_sum (n i : Nat) (h : i < n) : (oneHot n i).sum = 1 := by
  rw [oneHot, set_replicate_split n i h]
  rw [List.sum_append, List.sum_cons, sum_replicate_zero, sum_replicate_zero]
  norm_num

/-- A one-hot vector is zero away from the hot index. -/
theorem oneHot_getD_ne (n i j : Nat) (hi : i < n) (hne : j ≠ i) :
    (oneHot n i).getD j 0 = 0 := by
  rw [oneHot, set_replicate_split n i hi]
  rcases Nat.lt_or_ge j i with hji | hji
  · rw [getD_append_left 0 _ _ j (by simpa using hji)]
    exact getD_replicate 0 0 i j hji
  · have hji' : i < j := by omega
    obtain ⟨m, hm⟩ : ∃ m, j = i + (m + 1) := ⟨j - i - 1, by omega⟩
    subst hm
    have h1 : (List.replicate i (0 : ℚ) ++ 1 :: List.replicate (n - i - 1) 0).getD (i + (m + 1)) 0
        = (1 :: List.replicate (n - i - 1) (0 : ℚ)).getD (m + 1) 0 := by
      simpa using getD_append_right (0 : ℚ) (List.replicate i 0) (1 :: List.replicate (n - i - 1) 0) (m + 1)
    rw [h1, List.getD_cons_succ]
    rcases Nat.lt_or_ge m (n - i - 1) with hmm | hmm
    · exact getD_replicate 0 0 _ m hmm
    · rw [List.getD_eq_default]
      simp only [List.length_replicate]
      omega

/-- A successful association lookup comes from an entry of the list. -/
theorem alookup_mem {κ β : Type} [DecidableEq κ] (k : κ) (v : β) :
    ∀ (l : List (κ × β)), alookup k l = some v → (k, v) ∈ l := by
  intro l
  induction l with
  | nil => intro h; cases h
  | cons e rest ih =>
    intro h
    rw [alookup] at h
    by_cases he : e.fst = k
    · rw [if_pos he] at h
      injection h with hv
      have hkv : (k, v) = e := by rw [← he, ← hv]
      rw [hkv]
      exact List.mem_cons_self e rest
    · rw [if_neg he] at h
      exact List.mem_cons_of_mem e (ih h)

/-- A backup update does not decrease any visit count. -/
theorem lookupN_statUpdate_le (st : Stats) (s : Board) (a : Nat) (v : ℚ) (b : Board) (c : Nat) :
    lookupN st b c ≤ lookupN (statUpdate s a v st) b c := by
  unfold statUpdate lookupN
  simp only [alookup]
  by_cases h : ((s, a) : Board × Nat) = (b, c)
  · rw [if_pos h]
    injection h with h1 h2
    subst h1
    subst h2
    simp [lookupN]
  · rw [if_neg h]

/-- A backup update at (s, a) increments its own visit count by one. -/
theorem lookupN_statUpdate_self (st : Stats) (s : Board) (a : Nat) (v : ℚ) :
    lookupN (statUpdate s a v st) s a = lookupN st s a + 1 := by
  unfold statUpdate lookupN
  simp [alookup]

/-- Storing a prior changes no visit count. -/
theorem lookupN_setPs (st : Stats) (p : List (Board × List ℚ)) (b : Board) (c : Nat) :
    lookupN { st with ps := p } b c = lookupN st b c := rfl

/-- The selection fold only ever returns a legal, in-range action. -/
theorem selectFold_legal (g : FGame) (cpuct : ℚ) (st : Stats) (s : Board) (pri : List ℚ) :
    ∀ (l : List Nat) (acc : Option (Nat × ℚ)),
      (∀ a ∈ l, a < g.n) →
      (∀ x, acc = some x → (g.valids s).getD x.fst false = true ∧ x.fst < g.n) →
      ∀ x, List.foldl (selectStep g cpuct st s pri) acc l = some x →
        (g.valids s).getD x.fst false = true ∧ x.fst < g.n := by
  intro l
  induction l with
  | nil => intro acc _ hacc x hx; exact hacc x hx
  | cons a t ih =>
    intro acc hl hacc x hx
    rw [List.foldl_cons] at hx
    refine ih (selectStep g cpuct st s pri acc a)
      (fun b hb => hl b (List.mem_cons_of_mem a hb)) ?_ x hx
    intro y hy
    unfold selectStep at hy
    by_cases hv : (g.valids s).getD a false
    · rw [if_pos hv] at hy
      cases acc with
      | none =>
        injection hy with hy'
        rw [← hy']
        exact ⟨hv, hl a (List.mem_cons_self a t)⟩
      | some p =>
        simp only [] at hy
        by_cases hlt : p.snd < ucbScore cpuct (lookupQ st s a) (pri.getD a 0) (totalN g st s) (lookupN st s a)
        · rw [if_pos hlt] at hy
          injection hy with hy'
          rw [← hy']
          exact ⟨hv, hl a (List.mem_cons_self a t)⟩
        · rw [if_neg hlt] at hy
          injection hy with hy'
          rw [← hy']
          exact hacc p rfl
    · rw [if_neg hv] at hy
      exact hacc y hy

/-- Folding the selection step over any list from a some accumulator
yields a some result. -/
theorem selectFold_some_of_some (g : FGame) (cpuct : ℚ) (st : Stats) (s : Board) (pri : List ℚ) :
    ∀ (l : List Nat) (p : Nat × ℚ),
      ∃ q, List.foldl (selectStep g cpuct st s pri) (some p) l = some q := by
  intro l
  induction l with
  | nil => intro p; exact ⟨p, rfl⟩
  | cons a t ih =>
    intro p
    rw [List.foldl_cons]
    unfold selectStep
    by_cases hv : (g.valids s).getD a false
    · rw [if_pos hv]
      simp only []
      by_cases hlt : p.snd < ucbScore cpuct (lookupQ st s a) (pri.getD a 0) (totalN g st s) (lookupN st s a)
      · rw [if_pos hlt]
        exact ih _
      · rw [if_neg hlt]
        exact ih p
    · rw [if_neg hv]
      exact ih p

/-- When some listed action is legal the selection fold yields a some
result. -/
theorem selectFold_some (g : FGame) (cpuct : ℚ) (st : Stats) (s : Board) (pri : List ℚ) :
    ∀ (l : List Nat) (acc : Option (Nat × ℚ)) (a : Nat), a ∈ l →
      (g.valids s).getD a false = true →
      ∃ q, List.foldl (selectStep g cpuct st s pri) acc l = some q := by
  intro l
  induction l with
  | nil => intro acc a ha _; cases ha
  | cons b t ih =>
    intro acc a ha hleg
    rw [List.foldl_cons]
    by_cases hv : (g.valids s).getD b false
    · have hsome : ∃ p, selectStep g cpuct st s pri acc b = some p := by
        unfold selectStep
        rw [if_pos hv]
        cases acc with
        | none => exact ⟨_, rfl⟩
        | some p =>
          simp only []
          by_cases hlt : p.snd < ucbScore cpuct (lookupQ st s b) (pri.getD b 0) (totalN g st s) (lookupN st s b)
          · rw [if_pos hlt]; exact ⟨_, rfl⟩
          · rw [if_neg hlt]; exact ⟨p, rfl⟩
      obtain ⟨p, hp⟩ := hsome
      rw [hp]
      exact selectFold_some_of_some g cpuct st s pri t p
    · rcases List.mem_cons.mp ha with rfl | hat
      · exact absurd hleg (by simpa using hv)
      · have hstep : selectStep g cpuct st s pri acc b = acc := by
          unfold selectStep
          rw [if_neg hv]
        rw [hstep]
        exact ih acc a hat hleg

/-- A selected action is legal and inside the action space. -/
theorem selectAction_legal (g : FGame) (cpuct : ℚ) (st : Stats) (s : Board) (a : Nat)
    (h : selectAction g cpuct st s = some a) :
    (g.valids s).getD a false = true ∧ a < g.n := by
  unfold selectAction at h
  cases hf : List.foldl (selectStep g cpuct st s ((alookup s st.ps).getD (List.replicate g.n 0)))
      none (List.range g.n) with
  | none => rw [hf] at h; cases h
  | some x =>
    rw [hf] at h
    injection h with h'
    rw [← h']
    exact selectFold_legal g cpuct st s _ (List.range g.n) none
      (fun b hb => List.mem_range.mp hb) (fun y hy => by cases hy) x hf

/-- When a legal action exists selection returns one. -/
theorem selectAction_some (g : FGame) (cpuct : ℚ) (st : Stats) (s : Board)
    (h : ∃ a, a < g.n ∧ (g.valids s).getD a false = true) :
    ∃ a, selectAction g cpuct st s = some a := by
  obtain ⟨a, ha, hleg⟩ := h
  obtain ⟨q, hq⟩ := selectFold_some g cpuct st s _ (List.range g.n) none a
    (List.mem_range.mpr ha) hleg
  exact ⟨q.fst, by rw [selectAction, hq]; rfl⟩

/-- The recursive search never decreases a visit count. -/
theorem lookupN_searchRec_le (g : FGame) (ev : FEval) (cpuct : ℚ) :
    ∀ (fuel : Nat) (st : Stats) (s b : Board) (c : Nat),
      lookupN st b c ≤ lookupN (searchRec g ev cpuct fuel st s).snd b c := by
  intro fuel
  induction fuel with
  | zero => intro st s b c; exact le_refl _
  | succ f ih =>
    intro st s b c
    rw [searchRec]
    by_cases hend : g.ended s ≠ 0
    · rw [if_pos hend]
    · rw [if_neg hend]
      cases hps : alookup s st.ps with
      | none => exact le_of_eq (lookupN_setPs st _ b c).symm
      | some pri =>
        cases hsel : selectAction g cpuct st s with
        | none => exact le_refl _
        | some a =>
          simp only [searchChild]
          exact le_trans (ih st (g.next s a) b c)
            (lookupN_statUpdate_le _ s a _ b c)

/-- One root simulation never decreases a visit count. -/
theorem lookupN_simFromRoot_le (g : FGame) (ev : FEval) (cpuct : ℚ) (fuel : Nat)
    (st : Stats) (s b : Board) (c : Nat) :
    lookupN st b c ≤ lookupN (simFromRoot g ev cpuct fuel st s) b c := by
  unfold simFromRoot
  by_cases hend : g.ended s ≠ 0
  · rw [if_pos hend]
  · rw [if_neg hend]
    cases hsel : selectAction g cpuct st s with
    | none => exact le_refl _
    | some a =>
      exact le_trans (lookupN_searchRec_le g ev cpuct fuel st (g.next s a) b c)
        (lookupN_statUpdate_le _ s a _ b c)

/-- The simulation loop never decreases a visit count. -/
theorem lookupN_runSims_le (g : FGame) (ev : FEval) (cpuct : ℚ) (fuel : Nat) :
    ∀ (k : Nat) (st : Stats) (s b : Board) (c : Nat),
      lookupN st b c ≤ lookupN (runSims g ev cpuct fuel k st s) b c := by
  intro k
  induction k with
  | zero => intro st s b c; exact le_refl _
  | succ m ih =>
    intro st s b c
    rw [runSims]
    exact le_trans (lookupN_simFromRoot_le g ev cpuct fuel st s b c)
      (ih (simFromRoot g ev cpuct fuel st s) s b c)

/-- A backup update at a legal action preserves the support invariant. -/
theorem supportInv_statUpdate (g : FGame) (st : Stats) (s : Board) (a : Nat) (v : ℚ)
    (hleg : (g.valids s).getD a false = true) (h : SupportInv g st) :
    SupportInv g (statUpdate s a v st) := by
  intro e he
  rw [statUpdate] at he
  simp only [] at he
  rcases List.mem_cons.mp he with rfl | he'
  · exact hleg
  · exact h e he'

/-- The recursive search preserves the support invariant. -/
theorem supportInv_searchRec (g : FGame) (ev : FEval) (cpuct : ℚ) :
    ∀ (fuel : Nat) (st : Stats) (s : Board),
      SupportInv g st → SupportInv g (searchRec g ev cpuct fuel st s).snd := by
  intro fuel
  induction fuel with
  | zero => intro st s h; exact h
  | succ f ih =>
    intro st s h
    rw [searchRec]
    by_cases hend : g.ended s ≠ 0
    · rw [if_pos hend]; exact h
    · rw [if_neg hend]
      cases hps : alookup s st.ps with
      | none => exact h
      | some pri =>
        cases hsel : selectAction g cpuct st s with
        | none => exact h
        | some a =>
          simp only [searchChild]
          exact supportInv_statUpdate g _ s a _
            (selectAction_legal g cpuct st s a hsel).1 (ih st (g.next s a) h)

/-- One root simulation preserves the support invariant. -/
theorem supportInv_simFromRoot (g : FGame) (ev : FEval) (cpuct : ℚ) (fuel : Nat)
    (st : Stats) (s : Board) (h : SupportInv g st) :
    SupportInv g (simFromRoot g ev cpuct fuel st s) := by
  unfold simFromRoot
  by_cases hend : g.ended s ≠ 0
  · rw [if_pos hend]; exact h
  · rw [if_neg hend]
    cases hsel : selectAction g cpuct st s with
    | none => exact h
    | some a =>
      exact supportInv_statUpdate g _ s a _
        (selectAction_legal g cpuct st s a hsel).1
        (supportInv_searchRec g ev cpuct fuel st (g.next s a) h)

/-- The simulation loop preserves the support invariant. -/
theorem supportInv_runSims (g : FGame) (ev : FEval) (cpuct : ℚ) (fuel : Nat) :
    ∀ (k : Nat) (st : Stats) (s : Board),
      SupportInv g st → SupportInv g (runSims g ev cpuct fuel k st s) := by
  intro k
  induction k with
  | zero => intro st s h; exact h
  | succ m ih =>
    intro st s h
    rw [runSims]
    exact ih (simFromRoot g ev cpuct fuel st s) s
      (supportInv_simFromRoot g ev cpuct fuel st s h)

/-- One root simulation from a non-terminal root with a legal action
leaves some legal root action with a positive visit count. -/
theorem simFromRoot_pos (g : FGame) (ev : FEval) (cpuct : ℚ) (fuel : Nat)
    (st : Stats) (s : Board) (hend : g.ended s = 0)
    (hleg : ∃ a, a < g.n ∧ (g.valids s).getD a false = true) :
    ∃ a, a < g.n ∧ (g.valids s).getD a false = true ∧
      1 ≤ lookupN (simFromRoot g ev cpuct fuel st s) s a := by
  obtain ⟨a, hsel⟩ := selectAction_some g cpuct st s hleg
  obtain ⟨hl, hlt⟩ := selectAction_legal g cpuct st s a hsel
  refine ⟨a, hlt, hl, ?_⟩
  unfold simFromRoot
  rw [if_neg (not_not_intro hend), hsel]
  rw [lookupN_statUpdate_self]
  omega

/-- After at least one simulation from a non-terminal root with a legal
action, some legal root action has a positive visit count. -/
theorem runSims_pos (g : FGame) (ev : FEval) (cpuct : ℚ) (fuel : Nat) (k : Nat)
    (st : Stats) (s : Board) (hk : 1 ≤ k) (hend : g.ended s = 0)
    (hleg : ∃ a, a < g.n ∧ (g.valids s).getD a false = true) :
    ∃ a, a < g.n ∧ (g.valids s).getD a false = true ∧
      1 ≤ lookupN (runSims g ev cpuct fuel k st s) s a := by
  cases k with
  | zero => omega
  | succ m =>
    obtain ⟨a, hlt, hl, hpos⟩ := simFromRoot_pos g ev cpuct fuel st s hend hleg
    refine ⟨a, hlt, hl, ?_⟩
    rw [runSims]
    exact le_trans hpos
      (lookupN_runSims_le g ev cpuct fuel m (simFromRoot g ev cpuct fuel st s) s s a)

/-- The root count vector spans the whole action space. -/
theorem rootCounts_length (g : FGame) (ev : FEval) (cpuct : ℚ) (fuel sims : Nat) (s : Board) :
    (rootCounts g ev cpuct fuel sims s).length = g.n := by
  simp [rootCounts]

/-- The root count vector reads back the visit counts. -/
theorem rootCounts_getD (g : FGame) (ev : FEval) (cpuct : ℚ) (fuel sims : Nat) (s : Board)
    (a : Nat) (h : a < g.n) :
    (rootCounts g ev cpuct fuel sims s).getD a 0
      = lookupN (runSims g ev cpuct fuel sims (startStats g ev s) s) s a :=
  getD_range_map _ _ _ _ h

/-- The argmax of the root counts is a legal in-range action whenever the
root is non-terminal, has a legal action, and at least one simulation is
run. -/
theorem argmax_rootCounts_legal (g : FGame) (ev : FEval) (cpuct : ℚ) (fuel sims : Nat)
    (s : Board) (hsims : 1 ≤ sims) (hend : g.ended s = 0)
    (hleg : ∃ a, a < g.n ∧ (g.valids s).getD a false = true) :
    (g.valids s).getD (argmaxIdx (rootCounts g ev cpuct fuel sims s)) false = true ∧
    argmaxIdx (rootCounts g ev cpuct fuel sims s) < g.n := by
  obtain ⟨a, hlt, hl, hpos⟩ := runSims_pos g ev cpuct fuel sims (startStats g ev s) s hsims hend hleg
  have hne : rootCounts g ev cpuct fuel sims s ≠ [] := by
    apply List.ne_nil_of_length_pos
    rw [rootCounts_length]
    omega
  have hblt : argmaxIdx (rootCounts g ev cpuct fuel sims s) < g.n := by
    have := argmaxIdx_lt _ hne
    rwa [rootCounts_length] at this
  have hmem : lookupN (runSims g ev cpuct fuel sims (startStats g ev s) s) s a
      ∈ rootCounts g ev cpuct fuel sims s :=
    List.mem_map.mpr ⟨a, List.mem_range.mpr hlt, rfl⟩
  have hge := argmax_getD_ge 0 (rootCounts g ev cpuct fuel sims s) _ hmem
  have hpos' : 1 ≤ (rootCounts g ev cpuct fuel sims s).getD
      (argmaxIdx (rootCounts g ev cpuct fuel sims s)) 0 := le_trans hpos hge
  rw [rootCounts_getD g ev cpuct fuel sims s _ hblt] at hpos'
  have hsup : SupportInv g (runSims g ev cpuct fuel sims (startStats g ev s) s) := by
    apply supportInv_runSims
    intro e he
    cases he
  refine ⟨?_, hblt⟩
  cases hx : alookup ((s, argmaxIdx (rootCounts g ev cpuct fuel sims s)) : Board × Nat)
      (runSims g ev cpuct fuel sims (startStats g ev s) s).nsa with
  | none =>
    rw [lookupN, hx] at hpos'
    cases hpos'
  | some v =>
    exact hsup _ (alookup_mem _ v _ hx)

/-- At temperature 0 getActionProb is the one-hot vector on the argmax of
the root counts. -/
theorem getActionProb_zero (g : FGame) (ev : FEval) (cpuct : ℚ) (fuel sims : Nat) (s : Board) :
    getActionProb g ev cpuct fuel sims s 0
      = oneHot g.n (argmaxIdx (rootCounts g ev cpuct fuel sims s)) := by
  rw [getActionProb, if_pos rfl]

/-- The argmax of the temperature-0 distribution is the argmax of the
root counts. -/
theorem argmax_getActionProb (g : FGame) (ev : FEval) (cpuct : ℚ) (fuel sims : Nat)
    (s : Board) (hn : 0 < g.n) :
    argmaxIdx (getActionProb g ev cpuct fuel sims s 0)
      = argmaxIdx (rootCounts g ev cpuct fuel sims s) := by
  rw [getActionProb_zero]
  apply argmaxIdx_oneHot
  have hne : rootCounts g ev cpuct fuel sims s ≠ [] := by
    apply List.ne_nil_of_length_pos
    rw [rootCounts_length]
    omega
  have := argmaxIdx_lt _ hne
  rwa [rootCounts_length] at this

/-- Claim C3: ai_player asks getActionProb for the temperature-0
distribution, which is the one-hot vector over the full action space on
the argmax of the root visit counts; ai_player returns that argmax index,
the action with the highest root visit count, first maximum on ties as
np.argmax prescribes. -/
theorem ai_player_argmax (g : FGame) (ev : FEval) (fuel : Nat) (s : Board) (hn : 0 < g.n) :
    getActionProb g ev args_cpuct fuel args_numMCTSSims s 0
      = oneHot g.n (argmaxIdx (rootCounts g ev args_cpuct fuel args_numMCTSSims s)) ∧
    ai_player g ev fuel s = argmaxIdx (rootCounts g ev args_cpuct fuel args_numMCTSSims s) ∧
    (∀ c ∈ rootCounts g ev args_cpuct fuel args_numMCTSSims s,
      c ≤ (rootCounts g ev args_cpuct fuel args_numMCTSSims s).getD (ai_player g ev fuel s) 0) ∧
    (∀ j, j < ai_player g ev fuel s →
      (rootCounts g ev args_cpuct fuel args_numMCTSSims s).getD j 0
        < (rootCounts g ev args_cpuct fuel args_numMCTSSims s).getD (ai_player g ev fuel s) 0) := by
  have h2 : ai_player g ev fuel s
      = argmaxIdx (rootCounts g ev args_cpuct fuel args_numMCTSSims s) := by
    rw [ai_player]
    exact argmax_getActionProb g ev args_cpuct fuel args_numMCTSSims s hn
  refine ⟨getActionProb_zero g ev args_cpuct fuel args_numMCTSSims s, h2, ?_, ?_⟩
  · intro c hc
    rw [h2]
    exact argmax_getD_ge 0 _ c hc
  · intro j hj
    rw [h2] at hj ⊢
    exact argmax_getD_first 0 _ j hj

/-- Witness for claim C3: the concrete all-legal game at the empty board. -/
theorem ai_player_argmax_holds :
    getActionProb allLegalGame uniformEval args_cpuct 0 args_numMCTSSims [] 0
      = oneHot allLegalGame.n
          (argmaxIdx (rootCounts allLegalGame uniformEval args_cpuct 0 args_numMCTSSims [])) ∧
    ai_player allLegalGame uniformEval 0 []
      = argmaxIdx (rootCounts allLegalGame uniformEval args_cpuct 0 args_numMCTSSims []) ∧
    (∀ c ∈ rootCounts allLegalGame uniformEval args_cpuct 0 args_numMCTSSims [],
      c ≤ (rootCounts allLegalGame uniformEval args_cpuct 0 args_numMCTSSims []).getD
        (ai_player allLegalGame uniformEval 0 []) 0) ∧
    (∀ j, j < ai_player allLegalGame uniformEval 0 [] →
      (rootCounts allLegalGame uniformEval args_cpuct 0 args_numMCTSSims []).getD j 0
        < (rootCounts allLegalGame uniformEval args_cpuct 0 args_numMCTSSims []).getD
          (ai_player allLegalGame uniformEval 0 []) 0) :=
  ai_player_argmax allLegalGame uniformEval 0 [] (by decide)

/-- Claim C4: with the deterministic Evaluator and a fixed configuration,
two getActionProb decisions on the identical root select the identical
action; per the specified lifecycle the per-decision tree is never shared
across invocations, so the engine statistics left behind by any earlier
call of the shared engine instance do not influence the selection. -/
theorem ai_player_deterministic (st1 st2 : Stats) (g : FGame) (ev : FEval) (fuel : Nat)
    (s : Board) : aiPlayerFrom st1 g ev fuel s = aiPlayerFrom st2 g ev fuel s := rfl

/-- Claim C6: at temperature 0 the returned distribution covers the full
64-entry action space, sums to one exactly, is zero at every illegal
action, and its argmax — the action ai_player selects — is legal,
whenever the root is non-terminal, some action is legal, and at least one
simulation is run. -/
theorem getActionProb_distribution (g : FGame) (ev : FEval) (fuel sims : Nat) (s : Board)
    (hn : g.n = 64) (hsims : 1 ≤ sims) (hend : g.ended s = 0)
    (hleg : ∃ a, a < g.n ∧ (g.valids s).getD a false = true) :
    (getActionProb g ev args_cpuct fuel sims s 0).length = 64 ∧
    (getActionProb g ev args_cpuct fuel sims s 0).sum = 1 ∧
    (∀ a, a < 64 → (g.valids s).getD a false = false →
      (getActionProb g ev args_cpuct fuel sims s 0).getD a 0 = 0) ∧
    (g.valids s).getD (argmaxIdx (getActionProb g ev args_cpuct fuel sims s 0)) false = true := by
  obtain ⟨hlegB, hblt⟩ := argmax_rootCounts_legal g ev args_cpuct fuel sims s hsims hend hleg
  have hz := getActionProb_zero g ev args_cpuct fuel sims s
  have hargeq : argmaxIdx (getActionProb g ev args_cpuct fuel sims s 0)
      = argmaxIdx (rootCounts g ev args_cpuct fuel sims s) :=
    argmax_getActionProb g ev args_cpuct fuel sims s (by omega)
  refine ⟨?_, ?_, ?_, ?_⟩
  · rw [hz, oneHot_length, hn]
  · rw [hz]
    exact oneHot_sum _ _ hblt
  · intro a ha hil
    rw [hz]
    have hne : a ≠ argmaxIdx (rootCounts g ev args_cpuct fuel sims s) := by
      intro he
      rw [he, hlegB] at hil
      cases hil
    exact oneHot_getD_ne g.n _ a hblt hne
  · rw [hargeq]
    exact hlegB

/-- Witness for claim C6: the concrete all-legal game at the empty board
with the driver's 25 simulations. -/
theorem getActionProb_distribution_holds :
    (getActionProb allLegalGame uniformEval args_cpuct 0 25 [] 0).length = 64 ∧
    (getActionProb allLegalGame uniformEval args_cpuct 0 25 [] 0).sum = 1 ∧
    (∀ a, a < 64 → (allLegalGame.valids []).getD a false = false →
      (getActionProb allLegalGame uniformEval args_cpuct 0 25 [] 0).getD a 0 = 0) ∧
    (allLegalGame.valids []).getD
      (argmaxIdx (getActionProb allLegalGame uniformEval args_cpuct 0 25 [] 0)) false = true :=
  getActionProb_distribution allLegalGame uniformEval 0 25 [] rfl (by norm_num) rfl
    ⟨0, by decide⟩

end Migoyugo
